import Mathlib

/-!
Verification of the duplicate-file finder (`find_duplicates.py`).

The development shallowly embeds the program's data model and operations:

* `FileInfo` models the Python class `FileInfo` (src lines 19-49): a snapshot
  of one file's metadata.  Filesystem paths are modelled as lists of path
  components (`FsPath`); all paths are absolute, as in the source, where
  `FileInfo.path` and `Path.cwd()` are absolute and `source_path.absolute()`
  is taken before any move.
* The four grouping operations `find_duplicates_by_content` / `_size` /
  `_name` / `_stem` (src lines 122-161) are embedded through a common
  grouping fold (`groupFold`) over Python's insertion-ordered
  `defaultdict(list)` idiom, followed by the `len(files) > 1` filter.
* The memoized `FileInfo.hash` property (src lines 32-37) is embedded as an
  explicit state-passing function `hash_property` over a `HashState`; the
  environment function `calcHash` gives the result of the k-th invocation of
  `_calculate_hash` (`none` models the `None` returned on an I/O error).
  The field `computeCount` is ghost instrumentation counting how many times
  `_calculate_hash` has run; it does not influence behaviour.
* The relocation engine `move_duplicates` / `_move_single_file` /
  `_get_unique_filename` (src lines 163-291) is embedded as explicit state
  passing over a filesystem state `FS` (existing file paths, existing
  directory paths, and a ghost `trace` of performed moves recorded for
  specification purposes only).  OS failures of `shutil.move` are modelled by
  an environment `env : FsPath → Option String` giving, per source path, the
  error message of the raised `OSError` (`none` = the move succeeds).
  Directory creation (`mkdir(parents=True, exist_ok=True)`) is modelled as
  always succeeding.  The unbounded `while file_path.exists()` loop of
  `_get_unique_filename` is embedded with explicit fuel
  (`#files + #dirs + 1`), proven sufficient below (`uniqueAux` always exits
  through its `else` branch before the fuel runs out).
-/

/-- A filesystem path, as its list of components.  All paths are absolute. -/
abbrev FsPath : Type := List String

/-- The metadata snapshot stored per file (src lines 19-30).  In the source,
`name`, `stem` and `suffix` are derived from `path` and `size` comes from
`stat()`; here they are plain fields since the claims quantify over arbitrary
scanned records.  `hash` holds the memoized content-hash value: `some h` for
a computed digest, `none` when `_calculate_hash` returned `None` because the
file could not be read (src lines 39-49). -/
structure FileInfo where
  path : FsPath
  size : Nat
  name : String
  stem : String
  suffix : String
  hash : Option String
deriving DecidableEq

/-- Python truthiness of the optional hash string, as used by the guard
`if file_info.hash:` (src line 130): `None` and the empty string are falsy. -/
def pyTruthy : Option String → Bool
  | none => false
  | some s => !s.isEmpty

/-- One step of the `defaultdict(list)` grouping idiom:
`groups[k].append(f)` on an insertion-ordered dictionary represented as an
association list.  If the key is present its list is extended, otherwise a
new singleton group is appended at the end (Python dicts preserve key
insertion order). -/
def groupInsert {α : Type} [DecidableEq α] :
    List (α × List FileInfo) → α → FileInfo → List (α × List FileInfo)
  | [], k, f => [(k, [f])]
  | (k', g) :: rest, k, f =>
    if k' = k then (k', g ++ [f]) :: rest else (k', g) :: groupInsert rest k f

/-- The grouping loop common to the four `find_duplicates_by_*` methods:
fold over the scanned records, inserting each record that passes the guard
`cond` under key `key f`.  For size/name/stem grouping `cond` is constantly
true; for content grouping it is the truthiness guard of src line 130. -/
def groupFold {α : Type} [DecidableEq α] (cond : FileInfo → Bool)
    (key : FileInfo → α) (files : List FileInfo) : List (α × List FileInfo) :=
  files.foldl (fun acc f => if cond f then groupInsert acc (key f) f else acc) []

/-- The comprehension `{k: v for k, v in groups.items() if len(v) > 1}`
(src lines 134, 143, 152, 161). -/
def dupFilter {α : Type} (groups : List (α × List FileInfo)) :
    List (α × List FileInfo) :=
  groups.filter (fun p => 1 < p.2.length)

/-- Look up the member list stored under key `k` (empty when absent); used
only in specifications and proofs about the grouping fold. -/
def findGroup {α : Type} [DecidableEq α] :
    List (α × List FileInfo) → α → List FileInfo
  | [], _ => []
  | (k', g) :: rest, k => if k' = k then g else findGroup rest k

/-- `DuplicateFinder.find_duplicates_by_content` (src lines 122-134): group
by the memoized hash value, skipping records whose hash is falsy; the key of
an inserted record is its hash string. -/
def find_duplicates_by_content (files : List FileInfo) :
    List (String × List FileInfo) :=
  dupFilter (groupFold (fun f => pyTruthy f.hash) (fun f => f.hash.getD "") files)

/-- `DuplicateFinder.find_duplicates_by_size` (src lines 136-143). -/
def find_duplicates_by_size (files : List FileInfo) :
    List (Nat × List FileInfo) :=
  dupFilter (groupFold (fun _ => true) (fun f => f.size) files)

/-- `DuplicateFinder.find_duplicates_by_name` (src lines 145-152). -/
def find_duplicates_by_name (files : List FileInfo) :
    List (String × List FileInfo) :=
  dupFilter (groupFold (fun _ => true) (fun f => f.name) files)

/-- `DuplicateFinder.find_duplicates_by_stem` (src lines 154-161). -/
def find_duplicates_by_stem (files : List FileInfo) :
    List (String × List FileInfo) :=
  dupFilter (groupFold (fun _ => true) (fun f => f.stem) files)

/-- The mutable state behind the lazy `hash` property: the `_hash` slot
(initialized to `None`, src line 30) plus a ghost counter of how many times
`_calculate_hash` has been invoked. -/
structure HashState where
  _hash : Option String
  computeCount : Nat
deriving DecidableEq

/-- The `FileInfo.hash` property (src lines 32-37):

    if self._hash is None:
        self._hash = self._calculate_hash()
    return self._hash

`calcHash k` is the value the k-th invocation of `_calculate_hash` would
return (`none` models the `None` produced on an unreadable file, src lines
47-49).  Returns the value produced together with the updated state. -/
def hash_property (calcHash : Nat → Option String) (st : HashState) :
    Option String × HashState :=
  match st._hash with
  | some h => (some h, st)
  | none =>
    let r := calcHash st.computeCount
    (r, { _hash := r, computeCount := st.computeCount + 1 })

/-- The filesystem state seen by the relocation engine: the set of existing
file paths, the set of existing directory paths, and a ghost `trace`
recording each successfully performed move as a (source, destination) pair.
The trace is specification-only instrumentation: nothing reads it. -/
structure FS where
  files : List FsPath
  dirs : List FsPath
  trace : List (FsPath × FsPath)
deriving DecidableEq

/-- `Path.exists()`: true for both files and directories. -/
def existsPath (fs : FS) (p : FsPath) : Bool :=
  decide (p ∈ fs.files) || decide (p ∈ fs.dirs)

/-- Create a single directory if absent (`exist_ok=True`). -/
def addDir (fs : FS) (d : FsPath) : FS :=
  if d ∈ fs.dirs then fs else { fs with dirs := fs.dirs ++ [d] }

/-- `p.mkdir(parents=True, exist_ok=True)`: create `p` and every missing
ancestor.  Modelled as always succeeding. -/
def mkdirParents (fs : FS) (p : FsPath) : FS :=
  p.inits.foldl addDir fs

/-- `source_path.relative_to(Path.cwd())` (src line 244): the components of
`p` past `base` when `base` is a componentwise prefix of `p`, otherwise
`none` (Python raises `ValueError`, caught at src line 245). -/
def relativeTo (p base : FsPath) : Option FsPath :=
  if base.isPrefixOf p then some (p.drop base.length) else none

/-- The destination path computed by `_move_single_file` (src lines
238-249): destination root joined with the source's path relative to the
working directory, falling back to just the filename when the source is not
under the working directory. -/
def destinationPathOf (cwd destRoot : FsPath) (src : FsPath) : FsPath :=
  match relativeTo src cwd with
  | some rel => destRoot ++ rel
  | none => destRoot ++ [src.getLastD ""]

/-- Index of the last `'.'` in a filename's characters, mirroring the
`rfind('.')` used by `pathlib` to compute `stem` and `suffix`. -/
def rfindDot (cs : List Char) : Option Nat :=
  (List.range cs.length).reverse.find? (fun i => cs.getD i ' ' == '.')

/-- `pathlib`'s split of a filename into `(stem, suffix)`: when the last dot
sits strictly inside the name (`0 < i < len(name) - 1`) the suffix is the
part from that dot on, otherwise the stem is the whole name and the suffix
is empty. -/
def pySplitExt (name : String) : String × String :=
  match rfindDot name.data with
  | some i =>
    if 0 < i ∧ i + 1 < name.data.length then
      (⟨name.data.take i⟩, ⟨name.data.drop i⟩)
    else (name, "")
  | none => (name, "")

/-- The conflict-resolution candidate `f"{stem}_{counter}{suffix}"`
(src line 287). -/
def candidateName (stem sfx : String) (counter : Nat) : String :=
  stem ++ "_" ++ Nat.repr counter ++ sfx

/-- The `while file_path.exists()` loop of `_get_unique_filename` (src lines
286-289), with explicit fuel.  Each iteration re-checks existence of the
current candidate against the filesystem, then moves to the next counter. -/
def uniqueAux (ex : FsPath → Bool) (base : FsPath) (stem sfx : String) :
    Nat → Nat → FsPath → FsPath
  | _, 0, cur => cur
  | counter, fuel + 1, cur =>
    if ex cur then
      uniqueAux ex base stem sfx (counter + 1) fuel
        (base ++ [candidateName stem sfx counter])
    else cur

/-- `DuplicateFinder._get_unique_filename` (src lines 271-291).  The fuel
`#files + #dirs + 1` is sufficient: only finitely many paths exist, the
candidates are pairwise distinct, and the loop stops at the first candidate
that does not exist (proved below). -/
def _get_unique_filename (fs : FS) (file_path : FsPath) : FsPath :=
  let base_path := file_path.dropLast
  let stem := (pySplitExt (file_path.getLastD "")).1
  let sfx := (pySplitExt (file_path.getLastD "")).2
  uniqueAux (existsPath fs) base_path stem sfx 1
    (fs.files.length + fs.dirs.length + 1) file_path

/-- The collision handling of src lines 261-263: keep the computed
destination when it does not exist, otherwise rename via
`_get_unique_filename`. -/
def resolveDest (fs : FS) (p : FsPath) : FsPath :=
  if existsPath fs p then _get_unique_filename fs p else p

/-- `DuplicateFinder._move_single_file` (src lines 225-269).  In dry-run
mode it returns `True` before touching the filesystem (src line 254).
Otherwise it creates the destination's parent directories, resolves a name
collision, and attempts `shutil.move`; `env source = some cause` models the
`OSError` raised by `shutil.move`, re-raised as
`Exception("Could not move file: ...")` (src line 269).  A successful move
removes the source from the existing files, adds the resolved destination,
and records the pair in the ghost trace. -/
def _move_single_file (env : FsPath → Option String) (cwd destRoot : FsPath)
    (dryRun : Bool) (f : FileInfo) (fs : FS) : Except String Bool × FS :=
  let source_path := f.path
  let destination_path := destinationPathOf cwd destRoot source_path
  if dryRun then (Except.ok true, fs)
  else
    let fs1 := mkdirParents fs destination_path.dropLast
    let dest := resolveDest fs1 destination_path
    match env source_path with
    | none =>
      (Except.ok true,
        { fs1 with
            files := fs1.files.erase source_path ++ [dest],
            trace := fs1.trace ++ [(source_path, dest)] })
    | some cause => (Except.error ("Could not move file: " ++ cause), fs1)

/-- The statistics dictionary of `move_duplicates` (src lines 177-183).  An
`errors` entry is the pair (source path, exception text) abstracting the
formatted string `f"Error moving {path}: {e}"` of src line 219. -/
structure Stats where
  moved_files : Nat
  created_dirs : Nat
  errors : List (FsPath × String)
  total_space_freed : Nat
  moved_groups : Nat
deriving DecidableEq

/-- The per-file body of the inner loop of `move_duplicates` (src lines
209-221): attempt the move; on success bump `moved_files` and
`total_space_freed` by the record's snapshot size; on exception append an
error entry and continue. -/
def processFile (env : FsPath → Option String) (cwd destRoot : FsPath)
    (dryRun : Bool) (st : FS × Stats) (f : FileInfo) : FS × Stats :=
  match _move_single_file env cwd destRoot dryRun f st.1 with
  | (Except.ok moved, fs') =>
    if moved then
      (fs',
        { st.2 with
            moved_files := st.2.moved_files + 1,
            total_space_freed := st.2.total_space_freed + f.size })
    else (fs', st.2)
  | (Except.error e, fs') => (fs', { st.2 with errors := st.2.errors ++ [(f.path, e)] })

/-- The per-group body of `move_duplicates` (src lines 198-221): groups with
fewer than 2 members are skipped entirely; otherwise `moved_groups` is
bumped and the files to move (`files[1:]` when keeping the first) are
processed in order. -/
def processGroup {κ : Type} (env : FsPath → Option String) (cwd destRoot : FsPath)
    (keepFirst dryRun : Bool) (st : FS × Stats) (g : κ × List FileInfo) :
    FS × Stats :=
  if g.2.length < 2 then st
  else
    let st1 := (st.1, { st.2 with moved_groups := st.2.moved_groups + 1 })
    let files_to_move := if keepFirst then g.2.drop 1 else g.2
    files_to_move.foldl (processFile env cwd destRoot dryRun) st1

/-- `DuplicateFinder.move_duplicates` (src lines 163-223).  When not in
dry-run mode and the destination root does not exist it is created
(counting 1 in `created_dirs`, src lines 185-189; creation is modelled as
always succeeding).  Returns the statistics and the final filesystem. -/
def move_duplicates {κ : Type} (env : FsPath → Option String) (cwd : FsPath)
    (duplicates : List (κ × List FileInfo)) (destination_dir : FsPath)
    (keep_first dry_run : Bool) (fs : FS) : Stats × FS :=
  let stats0 : Stats :=
    { moved_files := 0, created_dirs := 0, errors := [],
      total_space_freed := 0, moved_groups := 0 }
  let init : FS × Stats :=
    if !dry_run && !existsPath fs destination_dir then
      (mkdirParents fs destination_dir,
        { stats0 with created_dirs := stats0.created_dirs + 1 })
    else (fs, stats0)
  let fin :=
    duplicates.foldl (processGroup env cwd destination_dir keep_first dry_run) init
  (fin.2, fin.1)

/-- The members a `move_duplicates` run attempts to move, in order
(specification helper): the concatenation, over the groups that are large
enough to be processed, of the group's files-to-move. -/
def planOf {κ : Type} (keepFirst : Bool) : List (κ × List FileInfo) → List FileInfo
  | [] => []
  | g :: rest =>
    (if 2 ≤ g.2.length then (if keepFirst then g.2.drop 1 else g.2) else [])
      ++ planOf keepFirst rest

/-- All member paths of a duplicates mapping, in order (specification
helper). -/
def allMemberPaths {κ : Type} : List (κ × List FileInfo) → List FsPath
  | [] => []
  | g :: rest => g.2.map (fun f => f.path) ++ allMemberPaths rest

/-- Decimal digit characters of `n`, most significant first; a structurally
transparent companion of core's fuel-based `Nat.toDigitsCore`, used to prove
that `Nat.repr` is injective. -/
def natChars (n : Nat) : List Char :=
  if _h : n < 10 then [Nat.digitChar n]
  else natChars (n / 10) ++ [Nat.digitChar (n % 10)]
decreasing_by exact Nat.div_lt_self (by omega) (by omega)

/-- The j-th collision candidate for a destination path `p`: `p` with its
filename replaced by `f"{stem}_{j}{suffix}"` (specification helper). -/
def candOf (p : FsPath) (j : Nat) : FsPath :=
  p.dropLast ++
    [candidateName (pySplitExt (p.getLastD "")).1 (pySplitExt (p.getLastD "")).2 j]

/-- The filesystem effect of one non-dry-run `_move_single_file` call
(specification helper: the `FS` projection of the per-file step). -/
def moveFS (env : FsPath → Option String) (cwd destRoot : FsPath)
    (f : FileInfo) (fs : FS) : FS :=
  (_move_single_file env cwd destRoot false f fs).2

/-- The filesystem effect of processing a list of files to move, in order
(specification helper). -/
def runFS (env : FsPath → Option String) (cwd destRoot : FsPath)
    (L : List FileInfo) (fs : FS) : FS :=
  L.foldl (fun fs f => moveFS env cwd destRoot f fs) fs

/-- Number of planned moves that succeed under `env` (specification
helper). -/
def successCount (env : FsPath → Option String) (L : List FileInfo) : Nat :=
  (L.filter (fun f => (env f.path).isNone)).length

/-- Total snapshot size of the planned moves that succeed under `env`
(specification helper). -/
def freedSpace (env : FsPath → Option String) (L : List FileInfo) : Nat :=
  ((L.filter (fun f => (env f.path).isNone)).map (fun f => f.size)).sum

/-- The ordered error entries produced by the failed moves of a planned move
list: one (source path, exception text) pair per failure, in processing
order (specification helper). -/
def errorsOf (env : FsPath → Option String) (L : List FileInfo) :
    List (FsPath × String) :=
  L.filterMap (fun f =>
    (env f.path).map (fun c => (f.path, "Could not move file: " ++ c)))

/-- Number of groups large enough to be processed (specification helper). -/
def processedGroups {κ : Type} (dups : List (κ × List FileInfo)) : Nat :=
  (dups.filter (fun g => decide (2 ≤ g.2.length))).length

/-! ### Concrete records used by witnesses and counterexamples -/

/-- A scanned record with a computed hash (witness data). -/
def wfA : FileInfo :=
  { path := ["r", "x", "a.txt"], size := 5, name := "a.txt", stem := "a",
    suffix := ".txt", hash := some "h1" }

/-- A second record sharing `wfA`'s hash, size, name and stem (witness
data). -/
def wfB : FileInfo :=
  { path := ["r", "y", "a.txt"], size := 5, name := "a.txt", stem := "a",
    suffix := ".txt", hash := some "h1" }

/-- A record whose hash computation failed (`hash = none`), sharing `wfA`'s
size, name and stem (witness data). -/
def wfN : FileInfo :=
  { path := ["r", "z", "a.txt"], size := 5, name := "a.txt", stem := "a",
    suffix := ".txt", hash := none }

/-- A `_calculate_hash` environment whose first invocation fails and whose
later invocations succeed (counterexample data for the memoization claim). -/
def calcFailFirst : Nat → Option String :=
  fun n => if n = 0 then none else some "h"

/-- A move environment that fails exactly on `wfB`'s path (witness data for
failure isolation). -/
def envFailB : FsPath → Option String :=
  fun p => if p = ["r", "y", "a.txt"] then some "EPERM" else none

/-- A filesystem with a destination-name collision (witness data): both the
computed destination `["d", "a.txt"]` and the first candidate
`["d", "a_1.txt"]` already exist. -/
def fsW : FS :=
  { files := [["d", "a.txt"], ["d", "a_1.txt"]], dirs := [], trace := [] }

/-- A filesystem holding the two records `wfA`, `wfB` under the working
directory `["r"]` (witness data for the relocation invariant). -/
def fsR : FS :=
  { files := [["r", "x", "a.txt"], ["r", "y", "a.txt"]],
    dirs := [[], ["r"], ["r", "x"], ["r", "y"]],
    trace := [] }

/-- A small starting filesystem used by witnesses: the working directory
`["c"]` with two files under it, and the ancestor directories existing. -/
def fs0 : FS :=
  { files := [["c", "x", "a.txt"], ["c", "y", "a.txt"]],
    dirs := [[], ["c"], ["c", "x"], ["c", "y"]],
    trace := [] }

/-! ### Grouping: the `defaultdict` fold -/

theorem findGroup_groupInsert {α : Type} [DecidableEq α]
    (acc : List (α × List FileInfo)) (k0 k : α) (f : FileInfo) :
    findGroup (groupInsert acc k0 f) k =
      if k0 = k then findGroup acc k ++ [f] else findGroup acc k := by
  induction acc with
  | nil =>
    by_cases h : k0 = k <;> simp [groupInsert, findGroup, h]
  | cons p rest ih =>
    obtain ⟨k', g⟩ := p
    by_cases h1 : k' = k0
    · subst h1
      by_cases h2 : k' = k <;> simp [groupInsert, findGroup, h2]
    · by_cases h2 : k' = k
      · subst h2
        have hk : ¬ k0 = k' := fun hh => h1 hh.symm
        simp [groupInsert, findGroup, h1, hk]
      · simp [groupInsert, findGroup, h1, h2, ih]

theorem keys_groupInsert {α : Type} [DecidableEq α]
    (acc : List (α × List FileInfo)) (k0 : α) (f : FileInfo) :
    (groupInsert acc k0 f).map Prod.fst =
      if k0 ∈ acc.map Prod.fst then acc.map Prod.fst
      else acc.map Prod.fst ++ [k0] := by
  induction acc with
  | nil => simp [groupInsert]
  | cons p rest ih =>
    obtain ⟨k', g⟩ := p
    by_cases h1 : k' = k0
    · subst h1
      simp [groupInsert]
    · have hk : ¬ k0 = k' := fun hh => h1 hh.symm
      by_cases h2 : k0 ∈ rest.map Prod.fst <;>
        simp [groupInsert, h1, h2, ih, hk]

theorem keys_nodup_groupInsert {α : Type} [DecidableEq α]
    (acc : List (α × List FileInfo)) (k0 : α) (f : FileInfo)
    (h : (acc.map Prod.fst).Nodup) :
    ((groupInsert acc k0 f).map Prod.fst).Nodup := by
  rw [keys_groupInsert]
  by_cases h2 : k0 ∈ acc.map Prod.fst
  · simpa [h2]
  · simp only [h2, if_false]
    rw [List.nodup_append]
    refine ⟨h, List.nodup_singleton k0, ?_⟩
    intro a ha hb
    rw [List.mem_singleton] at hb
    subst hb
    exact h2 ha

theorem keys_nodup_groupFold {α : Type} [DecidableEq α]
    (cond : FileInfo → Bool) (key : FileInfo → α) (files : List FileInfo) :
    ((groupFold cond key files).map Prod.fst).Nodup := by
  suffices H : ∀ (acc : List (α × List FileInfo)), (acc.map Prod.fst).Nodup →
      ((files.foldl
        (fun acc f => if cond f then groupInsert acc (key f) f else acc) acc).map
          Prod.fst).Nodup by
    exact H [] (by simp)
  induction files with
  | nil => intro acc h; simpa using h
  | cons f rest ih =>
    intro acc h
    simp only [List.foldl_cons]
    by_cases hc : cond f
    · exact ih _ (by simpa [hc] using keys_nodup_groupInsert acc (key f) f h)
    · simpa [hc] using ih acc h

theorem findGroup_eq_of_mem {α : Type} [DecidableEq α]
    (acc : List (α × List FileInfo)) (hnd : (acc.map Prod.fst).Nodup)
    {k : α} {g : List FileInfo} (h : (k, g) ∈ acc) : findGroup acc k = g := by
  induction acc with
  | nil => cases h
  | cons p rest ih =>
    obtain ⟨k', g'⟩ := p
    simp only [List.map_cons, List.nodup_cons] at hnd
    rcases List.mem_cons.mp h with h0 | h0
    · obtain ⟨rfl, rfl⟩ := Prod.mk.inj h0
      simp [findGroup]
    · have hk : ¬ k' = k := by
        intro hh
        subst hh
        exact hnd.1 (List.mem_map.mpr ⟨(k', g), h0, rfl⟩)
      simpa [findGroup, hk] using ih hnd.2 h0

theorem findGroup_groupFold {α : Type} [DecidableEq α]
    (cond : FileInfo → Bool) (key : FileInfo → α) (files : List FileInfo)
    (k : α) :
    findGroup (groupFold cond key files) k =
      files.filter (fun f => cond f && decide (key f = k)) := by
  suffices H : ∀ (acc : List (α × List FileInfo)),
      findGroup
        (files.foldl
          (fun acc f => if cond f then groupInsert acc (key f) f else acc) acc) k =
        findGroup acc k ++ files.filter (fun f => cond f && decide (key f = k)) by
    simpa [findGroup] using H []
  induction files with
  | nil => intro acc; simp
  | cons f rest ih =>
    intro acc
    simp only [List.foldl_cons]
    by_cases hc : cond f
    · rw [if_pos hc, ih]
      by_cases hk : key f = k
      · rw [findGroup_groupInsert]
        simp [hk, hc, List.filter_cons]
      · rw [findGroup_groupInsert]
        simp [hk, hc, List.filter_cons]
    · rw [if_neg hc, ih]
      simp [List.filter_cons, hc]

theorem mem_groupFold_eq_filter {α : Type} [DecidableEq α]
    {cond : FileInfo → Bool} {key : FileInfo → α} {files : List FileInfo}
    {k : α} {g : List FileInfo} (h : (k, g) ∈ groupFold cond key files) :
    g = files.filter (fun f => cond f && decide (key f = k)) := by
  have h1 := findGroup_eq_of_mem _ (keys_nodup_groupFold cond key files) h
  rw [findGroup_groupFold] at h1
  exact h1.symm

theorem mem_dupFilter {α : Type} {G : List (α × List FileInfo)}
    {k : α} {g : List FileInfo} :
    (k, g) ∈ dupFilter G ↔ (k, g) ∈ G ∧ 1 < g.length := by
  simp [dupFilter, List.mem_filter]

/-- C1: every group returned by each of the four grouping operations has at
least 2 members, and every member of a returned group carries exactly the
group's key (its hash value, size, name, or stem respectively). -/
theorem dup_groups_sound (files : List FileInfo) :
    (∀ k g, (k, g) ∈ find_duplicates_by_content files →
      2 ≤ g.length ∧ ∀ f ∈ g, f.hash = some k) ∧
    (∀ k g, (k, g) ∈ find_duplicates_by_size files →
      2 ≤ g.length ∧ ∀ f ∈ g, f.size = k) ∧
    (∀ k g, (k, g) ∈ find_duplicates_by_name files →
      2 ≤ g.length ∧ ∀ f ∈ g, f.name = k) ∧
    (∀ k g, (k, g) ∈ find_duplicates_by_stem files →
      2 ≤ g.length ∧ ∀ f ∈ g, f.stem = k) := by
  refine ⟨?_, ?_, ?_, ?_⟩ <;> intro k g h
  · obtain ⟨hm, hlen⟩ := mem_dupFilter.mp h
    refine ⟨hlen, ?_⟩
    intro f hf
    rw [mem_groupFold_eq_filter hm] at hf
    obtain ⟨-, hp⟩ := List.mem_filter.mp hf
    simp only [Bool.and_eq_true, decide_eq_true_eq] at hp
    obtain ⟨ht, hk⟩ := hp
    cases hh : f.hash with
    | none => rw [hh] at ht; simp [pyTruthy] at ht
    | some s =>
      rw [hh] at hk
      simp only [Option.getD_some] at hk
      rw [hk]
  · obtain ⟨hm, hlen⟩ := mem_dupFilter.mp h
    refine ⟨hlen, ?_⟩
    intro f hf
    rw [mem_groupFold_eq_filter hm] at hf
    obtain ⟨-, hp⟩ := List.mem_filter.mp hf
    simpa using hp
  · obtain ⟨hm, hlen⟩ := mem_dupFilter.mp h
    refine ⟨hlen, ?_⟩
    intro f hf
    rw [mem_groupFold_eq_filter hm] at hf
    obtain ⟨-, hp⟩ := List.mem_filter.mp hf
    simpa using hp
  · obtain ⟨hm, hlen⟩ := mem_dupFilter.mp h
    refine ⟨hlen, ?_⟩
    intro f hf
    rw [mem_groupFold_eq_filter hm] at hf
    obtain ⟨-, hp⟩ := List.mem_filter.mp hf
    simpa using hp

/-- Witness for C1 at a concrete input: the content grouping of two records
sharing hash "h1" returns the group under key "h1" with both members. -/
theorem dup_groups_sound_witness :
    2 ≤ [wfA, wfB].length ∧ ∀ f ∈ [wfA, wfB], f.hash = some "h1" :=
  (dup_groups_sound [wfA, wfB]).1 "h1" [wfA, wfB] (by decide)

/-- C7: a record whose hash is absent (falsy) is excluded from every
content group, still lands in the size/name/stem group under its own key
whenever that group is returned, and dropping it from the scanned list does
not change the content grouping of the remaining records at all. -/
theorem absent_hash_grouping (files : List FileInfo) (f : FileInfo)
    (hf : f ∈ files) (habs : pyTruthy f.hash = false) :
    (∀ k g, (k, g) ∈ find_duplicates_by_content files → f ∉ g) ∧
    (∀ g, (f.size, g) ∈ find_duplicates_by_size files → f ∈ g) ∧
    (∀ g, (f.name, g) ∈ find_duplicates_by_name files → f ∈ g) ∧
    (∀ g, (f.stem, g) ∈ find_duplicates_by_stem files → f ∈ g) ∧
    (∀ l1 l2, files = l1 ++ f :: l2 →
      find_duplicates_by_content files = find_duplicates_by_content (l1 ++ l2)) := by
  refine ⟨?_, ?_, ?_, ?_, ?_⟩
  · intro k g h hmem
    obtain ⟨hm, -⟩ := mem_dupFilter.mp h
    rw [mem_groupFold_eq_filter hm] at hmem
    obtain ⟨-, hp⟩ := List.mem_filter.mp hmem
    simp only [Bool.and_eq_true] at hp
    rw [habs] at hp
    exact Bool.false_ne_true hp.1
  · intro g h
    obtain ⟨hm, -⟩ := mem_dupFilter.mp h
    rw [mem_groupFold_eq_filter hm]
    exact List.mem_filter.mpr ⟨hf, by simp⟩
  · intro g h
    obtain ⟨hm, -⟩ := mem_dupFilter.mp h
    rw [mem_groupFold_eq_filter hm]
    exact List.mem_filter.mpr ⟨hf, by simp⟩
  · intro g h
    obtain ⟨hm, -⟩ := mem_dupFilter.mp h
    rw [mem_groupFold_eq_filter hm]
    exact List.mem_filter.mpr ⟨hf, by simp⟩
  · intro l1 l2 hsplit
    subst hsplit
    unfold find_duplicates_by_content groupFold
    rw [List.foldl_append, List.foldl_append, List.foldl_cons]
    rw [if_neg (by simp [habs])]

/-- Witness for C7 at a concrete input: a record with an absent hash still
belongs to the returned size group for its size. -/
theorem absent_hash_grouping_witness :
    (∀ k g, (k, g) ∈ find_duplicates_by_content [wfA, wfN, wfB] → wfN ∉ g) ∧
    (∀ g, (wfN.size, g) ∈ find_duplicates_by_size [wfA, wfN, wfB] → wfN ∈ g) ∧
    (∀ g, (wfN.name, g) ∈ find_duplicates_by_name [wfA, wfN, wfB] → wfN ∈ g) ∧
    (∀ g, (wfN.stem, g) ∈ find_duplicates_by_stem [wfA, wfN, wfB] → wfN ∈ g) ∧
    (∀ l1 l2, [wfA, wfN, wfB] = l1 ++ wfN :: l2 →
      find_duplicates_by_content [wfA, wfN, wfB] =
        find_duplicates_by_content (l1 ++ l2)) :=
  absent_hash_grouping [wfA, wfN, wfB] wfN (by decide) (by decide)

/-- C5 counterexample: when the first hash computation fails (yielding the
absent result), the next access does NOT return the first access's absent
result from the cache - it recomputes.  Starting from the freshly
constructed state (`_hash = none`, zero computations), with an environment
whose first computation fails and second succeeds, the first access returns
`none` but the second access returns `some "h"` and the computation counter
reaches 2. -/
theorem hash_memoized_counterexample :
    (hash_property calcFailFirst { _hash := none, computeCount := 0 }).1 = none ∧
    (hash_property calcFailFirst
      (hash_property calcFailFirst { _hash := none, computeCount := 0 }).2).1 =
        some "h" ∧
    (hash_property calcFailFirst
      (hash_property calcFailFirst { _hash := none, computeCount := 0 }).2).2.computeCount = 2 := by
  decide

/-- C5 as amended: a successful computation is cached - once `_hash` holds a
value, every access returns it unchanged without invoking `_calculate_hash`;
but when `_hash` is still `none` (not yet computed, or a previous computation
failed), an access invokes `_calculate_hash` exactly once more and stores its
result, so a failed computation is retried on the next access rather than
served from the cache. -/
theorem hash_memoized_after_success (calcHash : Nat → Option String)
    (st : HashState) :
    (∀ h : String, st._hash = some h → hash_property calcHash st = (some h, st)) ∧
    (st._hash = none →
      hash_property calcHash st =
        (calcHash st.computeCount,
          { _hash := calcHash st.computeCount,
            computeCount := st.computeCount + 1 })) := by
  constructor
  · intro h hh
    simp [hash_property, hh]
  · intro hh
    simp [hash_property, hh]

/-- Witness for the amended C5: a cached digest is returned as-is with no
further computation. -/
theorem hash_memoized_after_success_witness :
    hash_property calcFailFirst { _hash := some "h", computeCount := 3 } =
      (some "h", { _hash := some "h", computeCount := 3 }) :=
  (hash_memoized_after_success calcFailFirst
    { _hash := some "h", computeCount := 3 }).1 "h" rfl

/-! ### Relocation: dry-run purity and group skipping -/

theorem processFile_dryRun_fs (env : FsPath → Option String)
    (cwd destRoot : FsPath) (st : FS × Stats) (f : FileInfo) :
    (processFile env cwd destRoot true st f).1 = st.1 := by
  simp [processFile, _move_single_file]

theorem foldl_processFile_dryRun_fs (env : FsPath → Option String)
    (cwd destRoot : FsPath) (L : List FileInfo) :
    ∀ st : FS × Stats,
      (L.foldl (processFile env cwd destRoot true) st).1 = st.1 := by
  induction L with
  | nil => intro st; rfl
  | cons f rest ih =>
    intro st
    rw [List.foldl_cons, ih]
    exact processFile_dryRun_fs env cwd destRoot st f

theorem processGroup_dryRun_fs {κ : Type} (env : FsPath → Option String)
    (cwd destRoot : FsPath) (kf : Bool) (st : FS × Stats)
    (g : κ × List FileInfo) :
    (processGroup env cwd destRoot kf true st g).1 = st.1 := by
  unfold processGroup
  by_cases h : g.2.length < 2
  · rw [if_pos h]
  · rw [if_neg h]
    exact foldl_processFile_dryRun_fs env cwd destRoot _ _

theorem foldl_processGroup_dryRun_fs {κ : Type} (env : FsPath → Option String)
    (cwd destRoot : FsPath) (kf : Bool) (dups : List (κ × List FileInfo)) :
    ∀ st : FS × Stats,
      (dups.foldl (processGroup env cwd destRoot kf true) st).1 = st.1 := by
  induction dups with
  | nil => intro st; rfl
  | cons g rest ih =>
    intro st
    rw [List.foldl_cons, ih]
    exact processGroup_dryRun_fs env cwd destRoot kf st g

/-- C3: a dry-run relocation performs no filesystem mutation whatsoever: for
every duplicates mapping and destination, the final filesystem state (files,
directories, and move trace) is exactly the initial one; in particular no
file is moved and neither the destination root nor any destination
subdirectory is created. -/
theorem dry_run_pure {κ : Type} (env : FsPath → Option String) (cwd : FsPath)
    (dups : List (κ × List FileInfo)) (destination_dir : FsPath)
    (keep_first : Bool) (fs : FS) :
    (move_duplicates env cwd dups destination_dir keep_first true fs).2 = fs := by
  unfold move_duplicates
  simp only [Bool.not_true, Bool.false_and, if_neg Bool.false_ne_true]
  exact foldl_processGroup_dryRun_fs env cwd destination_dir keep_first dups _

/-- C10: a group with fewer than 2 members is skipped entirely by
`move_duplicates`: removing it from the mapping changes nothing - neither
the statistics (processed-group count included) nor the filesystem. -/
theorem small_group_skipped {κ : Type} (env : FsPath → Option String)
    (cwd : FsPath) (pre post : List (κ × List FileInfo)) (k : κ)
    (files : List FileInfo) (destination_dir : FsPath) (kf dr : Bool) (fs : FS)
    (h : files.length < 2) :
    move_duplicates env cwd (pre ++ (k, files) :: post) destination_dir kf dr fs =
      move_duplicates env cwd (pre ++ post) destination_dir kf dr fs := by
  unfold move_duplicates
  have hfold : ∀ st : FS × Stats,
      (pre ++ (k, files) :: post).foldl
        (processGroup env cwd destination_dir kf dr) st =
      (pre ++ post).foldl (processGroup env cwd destination_dir kf dr) st := by
    intro st
    rw [List.foldl_append, List.foldl_append, List.foldl_cons]
    have hskip :
        processGroup env cwd destination_dir kf dr
          (pre.foldl (processGroup env cwd destination_dir kf dr) st) (k, files) =
        pre.foldl (processGroup env cwd destination_dir kf dr) st := by
      unfold processGroup
      rw [if_pos h]
    rw [hskip]
  simp only [hfold]

/-- Witness for C10: a run over a mapping holding only a singleton group
equals the run over the empty mapping. -/
theorem small_group_skipped_witness :
    move_duplicates (fun _ => none) ["c"] ([] ++ ("k0", [wfN]) :: []) ["d"]
        true false fs0 =
      move_duplicates (fun _ => none) ["c"]
        (([] : List (String × List FileInfo)) ++ []) ["d"] true false fs0 :=
  small_group_skipped (fun _ => none) ["c"] [] [] "k0" [wfN] ["d"] true false fs0
    (by decide)

/-! ### Relocation: destination path construction -/

theorem addDir_files (fs : FS) (d : FsPath) : (addDir fs d).files = fs.files := by
  unfold addDir
  split <;> rfl

theorem addDir_trace (fs : FS) (d : FsPath) : (addDir fs d).trace = fs.trace := by
  unfold addDir
  split <;> rfl

theorem foldl_addDir_files (l : List FsPath) :
    ∀ fs : FS, (l.foldl addDir fs).files = fs.files := by
  induction l with
  | nil => intro fs; rfl
  | cons d rest ih =>
    intro fs
    rw [List.foldl_cons, ih, addDir_files]

theorem foldl_addDir_trace (l : List FsPath) :
    ∀ fs : FS, (l.foldl addDir fs).trace = fs.trace := by
  induction l with
  | nil => intro fs; rfl
  | cons d rest ih =>
    intro fs
    rw [List.foldl_cons, ih, addDir_trace]

theorem mkdirParents_files (fs : FS) (p : FsPath) :
    (mkdirParents fs p).files = fs.files :=
  foldl_addDir_files p.inits fs

theorem mkdirParents_trace (fs : FS) (p : FsPath) :
    (mkdirParents fs p).trace = fs.trace :=
  foldl_addDir_trace p.inits fs

/-- C6: the destination path of a relocated file is the destination root
joined with the source's path relative to the working directory when the
source lies under the working directory, and the destination root joined
with just the source's filename otherwise; a collision-free successful move
records exactly this destination in the move trace. -/
theorem destination_path_construction (cwd destRoot src : FsPath) :
    (cwd.isPrefixOf src = true →
      destinationPathOf cwd destRoot src = destRoot ++ src.drop cwd.length) ∧
    (cwd.isPrefixOf src = false →
      destinationPathOf cwd destRoot src = destRoot ++ [src.getLastD ""]) ∧
    (∀ (env : FsPath → Option String) (f : FileInfo) (fs : FS),
      f.path = src → env src = none →
      existsPath (mkdirParents fs (destinationPathOf cwd destRoot src).dropLast)
          (destinationPathOf cwd destRoot src) = false →
      (_move_single_file env cwd destRoot false f fs).2.trace =
        fs.trace ++ [(src, destinationPathOf cwd destRoot src)]) := by
  refine ⟨?_, ?_, ?_⟩
  · intro h
    unfold destinationPathOf relativeTo
    rw [if_pos h]
  · intro h
    unfold destinationPathOf relativeTo
    rw [if_neg (by rw [h]; exact Bool.false_ne_true)]
  · intro env f fs hpath henv hex
    subst hpath
    unfold _move_single_file
    rw [if_neg Bool.false_ne_true]
    simp only [henv]
    unfold resolveDest
    rw [hex, if_neg Bool.false_ne_true]
    simp [mkdirParents_trace]

/-- Witness for C6: a source under the working directory keeps its relative
path below the destination root. -/
theorem destination_path_construction_witness :
    destinationPathOf ["c"] ["d"] ["c", "x", "a.txt"] =
      ["d"] ++ (["c", "x", "a.txt"] : FsPath).drop (["c"] : FsPath).length :=
  (destination_path_construction ["c"] ["d"] ["c", "x", "a.txt"]).1 (by decide)

/-! ### Decimal rendering: `Nat.repr` is injective -/

theorem natChars_ne_nil (n : Nat) : natChars n ≠ [] := by
  rw [natChars]
  split <;> simp

theorem toDigitsCore_eq_natChars (fuel : Nat) :
    ∀ (n : Nat) (acc : List Char), n < fuel →
      Nat.toDigitsCore 10 fuel n acc = natChars n ++ acc := by
  induction fuel with
  | zero => intro n acc h; omega
  | succ f ih =>
    intro n acc h
    simp only [Nat.toDigitsCore]
    by_cases h0 : n / 10 = 0
    · have hn : n < 10 := by omega
      have hm : n % 10 = n := Nat.mod_eq_of_lt hn
      rw [if_pos h0, natChars, dif_pos hn, hm]
      rfl
    · have h1 : n / 10 < n := Nat.div_lt_self (by omega) (by omega)
      have hlt : n / 10 < f := by omega
      rw [if_neg h0, ih _ _ hlt]
      conv_rhs => rw [natChars]
      rw [dif_neg (by omega)]
      simp

theorem repr_eq_natChars (n : Nat) : Nat.repr n = (natChars n).asString := by
  unfold Nat.repr Nat.toDigits
  rw [toDigitsCore_eq_natChars (n + 1) n [] (by omega)]
  simp

theorem append_singleton_inj {α : Type} {l1 l2 : List α} {x y : α}
    (h : l1 ++ [x] = l2 ++ [y]) : l1 = l2 ∧ x = y := by
  have h2 := congrArg List.reverse h
  simp only [List.reverse_append, List.reverse_singleton, List.singleton_append,
    List.cons.injEq] at h2
  exact ⟨List.reverse_inj.mp h2.2, h2.1⟩

theorem natChars_lt (n : Nat) (h : n < 10) : natChars n = [Nat.digitChar n] := by
  rw [natChars, dif_pos h]

theorem natChars_ge (n : Nat) (h : ¬ n < 10) :
    natChars n = natChars (n / 10) ++ [Nat.digitChar (n % 10)] := by
  rw [natChars, dif_neg h]

theorem natChars_injective : ∀ a b : Nat, natChars a = natChars b → a = b := by
  have hdc : ∀ a < 10, ∀ b < 10, Nat.digitChar a = Nat.digitChar b → a = b := by
    decide
  intro a
  induction a using Nat.strong_induction_on with
  | _ a ih =>
    intro b h
    by_cases ha : a < 10 <;> by_cases hb : b < 10
    · rw [natChars_lt a ha, natChars_lt b hb] at h
      exact hdc a ha b hb (List.cons.inj h).1
    · exfalso
      rw [natChars_lt a ha, natChars_ge b hb] at h
      have hlen := congrArg List.length h
      have hpos : 0 < (natChars (b / 10)).length :=
        List.length_pos.mpr (natChars_ne_nil _)
      simp only [List.length_singleton, List.length_append] at hlen
      omega
    · exfalso
      rw [natChars_ge a ha, natChars_lt b hb] at h
      have hlen := congrArg List.length h
      have hpos : 0 < (natChars (a / 10)).length :=
        List.length_pos.mpr (natChars_ne_nil _)
      simp only [List.length_singleton, List.length_append] at hlen
      omega
    · rw [natChars_ge a ha, natChars_ge b hb] at h
      obtain ⟨h1, h2⟩ := append_singleton_inj h
      have hmod : a % 10 = b % 10 :=
        hdc _ (Nat.mod_lt _ (by omega)) _ (Nat.mod_lt _ (by omega)) h2
      have hdiv : a / 10 = b / 10 :=
        ih (a / 10) (Nat.div_lt_self (by omega) (by omega)) (b / 10) h1
      omega

theorem nat_repr_injective {a b : Nat} (h : Nat.repr a = Nat.repr b) : a = b := by
  rw [repr_eq_natChars, repr_eq_natChars] at h
  exact natChars_injective a b (congrArg String.data h)

/-! ### The collision-resolution candidates -/

theorem pySplitExt_append (name : String) :
    (pySplitExt name).1 ++ (pySplitExt name).2 = name := by
  unfold pySplitExt
  cases h : rfindDot name.data with
  | none => simp only [h]; simp
  | some i =>
    simp only [h]
    by_cases hc : 0 < i ∧ i + 1 < name.data.length
    · rw [if_pos hc]
      show (⟨name.data.take i⟩ : String) ++ ⟨name.data.drop i⟩ = name
      rw [show (⟨name.data.take i⟩ : String) ++ ⟨name.data.drop i⟩ =
        (⟨name.data.take i ++ name.data.drop i⟩ : String) from rfl]
      rw [List.take_append_drop]
    · rw [if_neg hc]
      simp

theorem candidateName_data (stem sfx : String) (c : Nat) :
    (candidateName stem sfx c).data =
      stem.data ++ '_' :: ((Nat.repr c).data ++ sfx.data) := by
  unfold candidateName
  simp [String.data_append]

theorem candidateName_inj {stem sfx : String} {c c' : Nat}
    (h : candidateName stem sfx c = candidateName stem sfx c') : c = c' := by
  have hd := congrArg String.data h
  rw [candidateName_data, candidateName_data] at hd
  have h1 := List.append_cancel_left hd
  have h2 := (List.cons.inj h1).2
  have h3 := List.append_cancel_right h2
  exact nat_repr_injective (String.ext h3)

theorem candidateName_ne_name (name : String) (c : Nat) :
    candidateName (pySplitExt name).1 (pySplitExt name).2 c ≠ name := by
  intro h
  have hlen := congrArg (fun s => s.data.length) h
  conv at hlen => rhs; rw [← pySplitExt_append name]
  simp only [candidateName_data, String.data_append, List.length_append,
    List.length_cons] at hlen
  omega

/-! ### The `_get_unique_filename` loop -/

theorem candOf_inj (p : FsPath) : Function.Injective (candOf p) := by
  intro j j' h
  unfold candOf at h
  have h1 := List.append_cancel_left h
  exact candidateName_inj (List.cons.inj h1).1

theorem candOf_ne_self (p : FsPath) (j : Nat) : candOf p j ≠ p := by
  intro h
  rcases List.eq_nil_or_concat p with hnil | ⟨q, x, hq⟩
  · rw [hnil] at h
    simp [candOf] at h
  · rw [List.concat_eq_append] at hq
    subst hq
    unfold candOf at h
    rw [List.dropLast_concat, List.getLastD_concat] at h
    have h1 := (append_singleton_inj h).2
    exact candidateName_ne_name x j h1

theorem uniqueAux_finds_first (ex : FsPath → Bool) (base : FsPath)
    (stem sfx : String) :
    ∀ (f c : Nat),
      (∃ j, c ≤ j ∧ j < c + f ∧ ex (base ++ [candidateName stem sfx j]) = false) →
      ∃ m, c ≤ m ∧ m < c + f ∧
        ex (base ++ [candidateName stem sfx m]) = false ∧
        (∀ j, c ≤ j → j < m → ex (base ++ [candidateName stem sfx j]) = true) ∧
        uniqueAux ex base stem sfx (c + 1) f (base ++ [candidateName stem sfx c]) =
          base ++ [candidateName stem sfx m] := by
  intro f
  induction f with
  | zero =>
    intro c h
    obtain ⟨j, h1, h2, -⟩ := h
    omega
  | succ f ih =>
    intro c hfree
    by_cases hc : ex (base ++ [candidateName stem sfx c]) = true
    · obtain ⟨j, hj1, hj2, hj3⟩ := hfree
      have hjc : j ≠ c := by
        intro hh
        rw [hh, hc] at hj3
        cases hj3
      obtain ⟨m, hm1, hm2, hm3, hm4, hm5⟩ :=
        ih (c + 1) ⟨j, by omega, by omega, hj3⟩
      refine ⟨m, by omega, by omega, hm3, ?_, ?_⟩
      · intro j' hj'1 hj'2
        by_cases hx : j' = c
        · rw [hx]; exact hc
        · exact hm4 j' (by omega) hj'2
      · simp only [uniqueAux]
        rw [if_pos hc]
        exact hm5
    · have hcf : ex (base ++ [candidateName stem sfx c]) = false := by
        simpa using hc
      refine ⟨c, le_refl c, by omega, hcf, fun j h1 h2 => by omega, ?_⟩
      simp only [uniqueAux]
      rw [if_neg hc]

theorem existsPath_mem_union {fs : FS} {q : FsPath}
    (h : existsPath fs q = true) : q ∈ fs.files ++ fs.dirs := by
  unfold existsPath at h
  rcases Bool.or_eq_true_iff.mp h with h1 | h1
  · exact List.mem_append.mpr (Or.inl (of_decide_eq_true h1))
  · exact List.mem_append.mpr (Or.inr (of_decide_eq_true h1))

theorem free_candidate_exists (fs : FS) (p : FsPath)
    (hex : existsPath fs p = true) :
    ∃ j, 1 ≤ j ∧ j < 1 + (fs.files.length + fs.dirs.length) ∧
      existsPath fs (candOf p j) = false := by
  by_contra hall
  push_neg at hall
  have hall' : ∀ j, 1 ≤ j → j < 1 + (fs.files.length + fs.dirs.length) →
      existsPath fs (candOf p j) = true := by
    intro j h1 h2
    have := hall j h1 h2
    cases hx : existsPath fs (candOf p j) with
    | true => rfl
    | false => exact absurd hx this
  have hC : (p :: (List.range' 1 (fs.files.length + fs.dirs.length)).map
      (candOf p)).Nodup := by
    rw [List.nodup_cons]
    constructor
    · intro hmem
      obtain ⟨j, -, hj⟩ := List.mem_map.mp hmem
      exact candOf_ne_self p j hj
    · exact (List.nodup_range' 1 _).map (candOf_inj p)
  have hsub : (p :: (List.range' 1 (fs.files.length + fs.dirs.length)).map
      (candOf p)) ⊆ fs.files ++ fs.dirs := by
    intro q hq
    rcases List.mem_cons.mp hq with rfl | hq
    · exact existsPath_mem_union hex
    · obtain ⟨j, hj1, rfl⟩ := List.mem_map.mp hq
      obtain ⟨hj2, hj3⟩ := List.mem_range'_1.mp hj1
      exact existsPath_mem_union (hall' j hj2 hj3)
  have hlen := (hC.subperm hsub).length_le
  simp only [List.length_cons, List.length_map, List.length_range',
    List.length_append] at hlen
  omega

theorem get_unique_filename_spec (fs : FS) (p : FsPath)
    (hex : existsPath fs p = true) :
    ∃ m, 1 ≤ m ∧
      _get_unique_filename fs p = candOf p m ∧
      existsPath fs (candOf p m) = false ∧
      ∀ j, 1 ≤ j → j < m → existsPath fs (candOf p j) = true := by
  obtain ⟨m, hm1, hm2, hm3, hm4, hm5⟩ :=
    uniqueAux_finds_first (existsPath fs) p.dropLast
      (pySplitExt (p.getLastD "")).1 (pySplitExt (p.getLastD "")).2
      (fs.files.length + fs.dirs.length) 1
      (by
        obtain ⟨j, h1, h2, h3⟩ := free_candidate_exists fs p hex
        exact ⟨j, h1, h2, h3⟩)
  refine ⟨m, hm1, ?_, hm3, hm4⟩
  unfold _get_unique_filename
  simp only [uniqueAux]
  rw [if_pos hex]
  exact hm5

/-- C4: the collision policy of the relocator never overwrites: the resolved
destination of any computed destination path never exists on the filesystem,
and when the computed path does exist the resolved destination is obtained
by appending an incrementing numeric suffix before the extension
(`name_1.ext`, `name_2.ext`, ...), existence being re-checked against the
filesystem at each candidate: the chosen suffix is the first whose candidate
does not exist, every earlier candidate existing. -/
theorem collision_resolution_safe (fs : FS) (p : FsPath) :
    existsPath fs (resolveDest fs p) = false ∧
    (existsPath fs p = true →
      ∃ m, 1 ≤ m ∧ resolveDest fs p = candOf p m ∧
        ∀ j, 1 ≤ j → j < m → existsPath fs (candOf p j) = true) := by
  constructor
  · by_cases hex : existsPath fs p = true
    · obtain ⟨m, -, hu, hfree, -⟩ := get_unique_filename_spec fs p hex
      unfold resolveDest
      rw [if_pos hex, hu]
      exact hfree
    · unfold resolveDest
      rw [if_neg hex]
      simpa using hex
  · intro hex
    obtain ⟨m, hm1, hu, -, hmin⟩ := get_unique_filename_spec fs p hex
    unfold resolveDest
    rw [if_pos hex]
    exact ⟨m, hm1, hu, hmin⟩

/-- Witness for C4: with `a.txt` and `a_1.txt` both existing at the
destination, the resolved destination is the candidate with suffix 2, and
the earlier candidate existed. -/
theorem collision_resolution_safe_witness :
    existsPath fsW ["d", "a.txt"] = true ∧
    ∃ m, 1 ≤ m ∧ resolveDest fsW ["d", "a.txt"] = candOf ["d", "a.txt"] m ∧
      ∀ j, 1 ≤ j → j < m →
        existsPath fsW (candOf ["d", "a.txt"] j) = true :=
  ⟨by decide, (collision_resolution_safe fsW ["d", "a.txt"]).2 (by decide)⟩

/-! ### Per-move effect on the filesystem -/

theorem isPrefixOf_exists_append : ∀ (a b : FsPath),
    a.isPrefixOf b = true ↔ ∃ t, b = a ++ t := by
  intro a
  induction a with
  | nil =>
    intro b
    simp [List.isPrefixOf]
  | cons x as ih =>
    intro b
    cases b with
    | nil => simp [List.isPrefixOf]
    | cons y bs =>
      rw [show (x :: as).isPrefixOf (y :: bs) = ((x == y) && as.isPrefixOf bs)
        from rfl]
      rw [Bool.and_eq_true, beq_iff_eq, ih bs]
      constructor
      · rintro ⟨hxy, t, hbs⟩
        refine ⟨t, ?_⟩
        rw [hbs, hxy]
        rfl
      · rintro ⟨t, ht⟩
        obtain ⟨h1, h2⟩ := List.cons.inj ht
        exact ⟨h1.symm, t, h2⟩

theorem not_mem_files_of_existsPath_false {fs : FS} {q : FsPath}
    (h : existsPath fs q = false) : q ∉ fs.files := by
  intro hm
  simp [existsPath, hm] at h

theorem destinationPathOf_shape (cwd destRoot src : FsPath) (hsrc : src ≠ cwd) :
    ∃ t, destinationPathOf cwd destRoot src = destRoot ++ t ∧ t ≠ [] := by
  unfold destinationPathOf relativeTo
  by_cases h : cwd.isPrefixOf src = true
  · rw [if_pos h]
    obtain ⟨t, rfl⟩ := (isPrefixOf_exists_append cwd src).mp h
    refine ⟨t, ?_, ?_⟩
    · simp [List.drop_left]
    · intro ht
      rw [ht] at hsrc
      exact hsrc (List.append_nil cwd)
  · rw [if_neg h]
    exact ⟨[src.getLastD ""], rfl, by simp⟩

theorem resolveDest_not_exists (fs : FS) (p : FsPath) :
    existsPath fs (resolveDest fs p) = false := by
  by_cases hex : existsPath fs p = true
  · obtain ⟨m, -, hu, hfree, -⟩ := get_unique_filename_spec fs p hex
    unfold resolveDest
    rw [if_pos hex, hu]
    exact hfree
  · unfold resolveDest
    rw [if_neg hex]
    simpa using hex

theorem resolveDest_shape (fs : FS) (p : FsPath) :
    resolveDest fs p = p ∨ ∃ m, resolveDest fs p = candOf p m := by
  unfold resolveDest
  by_cases hex : existsPath fs p = true
  · rw [if_pos hex]
    obtain ⟨m, -, hu, -, -⟩ := get_unique_filename_spec fs p hex
    exact Or.inr ⟨m, hu⟩
  · rw [if_neg hex]
    exact Or.inl rfl

theorem candOf_append_shape (destRoot t : FsPath) (hne : t ≠ []) (m : Nat) :
    ∃ t', candOf (destRoot ++ t) m = destRoot ++ t' ∧ t' ≠ [] := by
  unfold candOf
  rw [List.dropLast_append_of_ne_nil destRoot hne]
  refine ⟨t.dropLast ++
    [candidateName (pySplitExt ((destRoot ++ t).getLastD "")).1
      (pySplitExt ((destRoot ++ t).getLastD "")).2 m], ?_, by simp⟩
  rw [List.append_assoc]

theorem moveFS_fail (env : FsPath → Option String) (cwd destRoot : FsPath)
    (f : FileInfo) (fs : FS) {c : String} (h : env f.path = some c) :
    (moveFS env cwd destRoot f fs).files = fs.files ∧
    (moveFS env cwd destRoot f fs).trace = fs.trace := by
  unfold moveFS _move_single_file
  rw [if_neg Bool.false_ne_true]
  simp only [h]
  exact ⟨mkdirParents_files _ _, mkdirParents_trace _ _⟩

theorem moveFS_succ (env : FsPath → Option String) (cwd destRoot : FsPath)
    (f : FileInfo) (fs : FS) (h : env f.path = none) :
    ∃ d, d ∉ fs.files ∧
      (moveFS env cwd destRoot f fs).files = fs.files.erase f.path ++ [d] ∧
      (moveFS env cwd destRoot f fs).trace = fs.trace ++ [(f.path, d)] ∧
      (f.path ≠ cwd → ∃ t, d = destRoot ++ t ∧ t ≠ []) := by
  refine ⟨resolveDest
    (mkdirParents fs (destinationPathOf cwd destRoot f.path).dropLast)
    (destinationPathOf cwd destRoot f.path), ?_, ?_, ?_, ?_⟩
  · have hfree := not_mem_files_of_existsPath_false (resolveDest_not_exists
      (mkdirParents fs (destinationPathOf cwd destRoot f.path).dropLast)
      (destinationPathOf cwd destRoot f.path))
    rw [mkdirParents_files] at hfree
    exact hfree
  · unfold moveFS _move_single_file
    rw [if_neg Bool.false_ne_true]
    simp only [h]
    rw [mkdirParents_files]
  · unfold moveFS _move_single_file
    rw [if_neg Bool.false_ne_true]
    simp only [h]
    rw [mkdirParents_trace]
  · intro hne
    obtain ⟨t, hdp, htne⟩ := destinationPathOf_shape cwd destRoot f.path hne
    rcases resolveDest_shape
        (mkdirParents fs (destinationPathOf cwd destRoot f.path).dropLast)
        (destinationPathOf cwd destRoot f.path) with hr | ⟨m, hr⟩
    · exact ⟨t, by rw [hr, hdp], htne⟩
    · rw [hr, hdp]
      exact candOf_append_shape destRoot t htne m

/-! ### Processing a list of files: filesystem invariants -/

theorem runFS_cons (env : FsPath → Option String) (cwd destRoot : FsPath)
    (f : FileInfo) (L : List FileInfo) (fs : FS) :
    runFS env cwd destRoot (f :: L) fs =
      runFS env cwd destRoot L (moveFS env cwd destRoot f fs) := rfl

theorem runFS_append (env : FsPath → Option String) (cwd destRoot : FsPath)
    (L1 L2 : List FileInfo) (fs : FS) :
    runFS env cwd destRoot (L1 ++ L2) fs =
      runFS env cwd destRoot L2 (runFS env cwd destRoot L1 fs) :=
  List.foldl_append _ _ _ _

theorem runFS_untouched (env : FsPath → Option String) (cwd destRoot : FsPath)
    (L : List FileInfo) :
    ∀ (fs : FS) (q : FsPath),
      (∀ f ∈ L, f.path ≠ cwd) →
      (∀ t, q ≠ destRoot ++ t) →
      (∀ f ∈ L, f.path ≠ q) →
      (q ∈ (runFS env cwd destRoot L fs).files ↔ q ∈ fs.files) := by
  induction L with
  | nil => intro fs q _ _ _; exact Iff.rfl
  | cons f rest ih =>
    intro fs q h1 h2 h3
    rw [runFS_cons]
    rw [ih _ q (fun g hg => h1 g (List.mem_cons_of_mem f hg)) h2
      (fun g hg => h3 g (List.mem_cons_of_mem f hg))]
    cases henv : env f.path with
    | some c => rw [(moveFS_fail env cwd destRoot f fs henv).1]
    | none =>
      obtain ⟨d, -, hfiles, -, hshape⟩ := moveFS_succ env cwd destRoot f fs henv
      rw [hfiles]
      have hfc : f.path ≠ cwd := h1 f (List.mem_cons_self f rest)
      obtain ⟨t, hd, -⟩ := hshape hfc
      have hqd : q ≠ d := by rw [hd]; exact h2 t
      have hqf : q ≠ f.path := (h3 f (List.mem_cons_self f rest)).symm
      rw [List.mem_append]
      simp only [List.mem_singleton]
      constructor
      · rintro (hq | hq)
        · exact (List.mem_erase_of_ne hqf).mp hq
        · exact absurd hq hqd
      · intro hq
        exact Or.inl ((List.mem_erase_of_ne hqf).mpr hq)

theorem runFS_nodup (env : FsPath → Option String) (cwd destRoot : FsPath)
    (L : List FileInfo) :
    ∀ fs : FS, fs.files.Nodup → (runFS env cwd destRoot L fs).files.Nodup := by
  induction L with
  | nil => intro fs h; exact h
  | cons f rest ih =>
    intro fs h
    rw [runFS_cons]
    apply ih
    cases henv : env f.path with
    | some c => rw [(moveFS_fail env cwd destRoot f fs henv).1]; exact h
    | none =>
      obtain ⟨d, hdnot, hfiles, -, -⟩ := moveFS_succ env cwd destRoot f fs henv
      rw [hfiles, List.nodup_append]
      refine ⟨h.erase _, List.nodup_singleton d, ?_⟩
      intro x hx hxd
      rw [List.mem_singleton] at hxd
      subst hxd
      exact hdnot (List.erase_subset _ _ hx)

theorem runFS_keeps (env : FsPath → Option String) (cwd destRoot : FsPath)
    (L : List FileInfo) :
    ∀ (fs : FS) (q : FsPath),
      (∀ f ∈ L, ∀ t, f.path ≠ destRoot ++ t) →
      (∃ t, q = destRoot ++ t) →
      q ∈ fs.files → q ∈ (runFS env cwd destRoot L fs).files := by
  induction L with
  | nil => intro fs q _ _ hq; exact hq
  | cons f rest ih =>
    intro fs q h1 h2 hq
    rw [runFS_cons]
    apply ih _ q (fun g hg => h1 g (List.mem_cons_of_mem f hg)) h2
    cases henv : env f.path with
    | some c => rw [(moveFS_fail env cwd destRoot f fs henv).1]; exact hq
    | none =>
      obtain ⟨d, -, hfiles, -, -⟩ := moveFS_succ env cwd destRoot f fs henv
      rw [hfiles, List.mem_append]
      obtain ⟨t, rfl⟩ := h2
      have hqf : destRoot ++ t ≠ f.path :=
        fun hh => h1 f (List.mem_cons_self f rest) t hh.symm
      exact Or.inl ((List.mem_erase_of_ne hqf).mpr hq)

theorem runFS_trace_mono (env : FsPath → Option String) (cwd destRoot : FsPath)
    (L : List FileInfo) :
    ∀ fs : FS, ∃ tl, (runFS env cwd destRoot L fs).trace = fs.trace ++ tl := by
  induction L with
  | nil => intro fs; exact ⟨[], (List.append_nil _).symm⟩
  | cons f rest ih =>
    intro fs
    rw [runFS_cons]
    obtain ⟨tl, htl⟩ := ih (moveFS env cwd destRoot f fs)
    cases henv : env f.path with
    | some c =>
      refine ⟨tl, ?_⟩
      rw [htl, (moveFS_fail env cwd destRoot f fs henv).2]
    | none =>
      obtain ⟨d, -, -, htr, -⟩ := moveFS_succ env cwd destRoot f fs henv
      refine ⟨(f.path, d) :: tl, ?_⟩
      rw [htl, htr, List.append_assoc]
      rfl

theorem runFS_success_trace (env : FsPath → Option String)
    (cwd destRoot : FsPath) (L : List FileInfo) :
    ∀ fs : FS, ∀ f ∈ L, env f.path = none →
      ∃ d, (f.path, d) ∈ (runFS env cwd destRoot L fs).trace := by
  induction L with
  | nil => intro fs f hf; cases hf
  | cons g rest ih =>
    intro fs f hf henv
    rcases List.mem_cons.mp hf with rfl | hf'
    · obtain ⟨d, -, -, htr, -⟩ := moveFS_succ env cwd destRoot f fs henv
      obtain ⟨tl, htl⟩ := runFS_trace_mono env cwd destRoot rest
        (moveFS env cwd destRoot f fs)
      refine ⟨d, ?_⟩
      rw [runFS_cons, htl, htr]
      simp
    · rw [runFS_cons]
      exact ih _ f hf' henv

theorem runFS_member (env : FsPath → Option String) (cwd destRoot : FsPath)
    (L : List FileInfo) (fs : FS)
    (hb1 : ∀ f ∈ L, f.path ≠ cwd)
    (hb2 : ∀ f ∈ L, ∀ t, f.path ≠ destRoot ++ t)
    (hnd : (L.map (fun f => f.path)).Nodup)
    (hfsnd : fs.files.Nodup)
    (m : FileInfo) (hm : m ∈ L) (hin : m.path ∈ fs.files)
    (hok : env m.path = none) :
    m.path ∉ (runFS env cwd destRoot L fs).files ∧
    ∃ d, (m.path, d) ∈ (runFS env cwd destRoot L fs).trace ∧
      d ∈ (runFS env cwd destRoot L fs).files := by
  obtain ⟨L1, L2, rfl⟩ := List.append_of_mem hm
  have hm' : m ∈ L1 ++ m :: L2 :=
    List.mem_append.mpr (Or.inr (List.mem_cons_self m L2))
  have hmcwd : m.path ≠ cwd := hb1 m hm'
  have hmroot : ∀ t, m.path ≠ destRoot ++ t := hb2 m hm'
  have hndsplit := hnd
  simp only [List.map_append, List.map_cons, List.nodup_append,
    List.nodup_cons] at hndsplit
  obtain ⟨hnd1, ⟨hmL2, hnd2⟩, hdisj⟩ := hndsplit
  have hnot1 : ∀ f ∈ L1, f.path ≠ m.path := by
    intro f hf heq
    exact hdisj (List.mem_map.mpr ⟨f, hf, rfl⟩)
      (by rw [heq]; exact List.mem_cons_self _ _)
  have hnot2 : ∀ f ∈ L2, f.path ≠ m.path := by
    intro f hf heq
    exact hmL2 (heq ▸ List.mem_map.mpr ⟨f, hf, rfl⟩)
  have hb1L1 : ∀ f ∈ L1, f.path ≠ cwd :=
    fun f hf => hb1 f (List.mem_append.mpr (Or.inl hf))
  have hb1L2 : ∀ f ∈ L2, f.path ≠ cwd :=
    fun f hf => hb1 f (List.mem_append.mpr (Or.inr (List.mem_cons_of_mem m hf)))
  have hb2L1 : ∀ f ∈ L1, ∀ t, f.path ≠ destRoot ++ t :=
    fun f hf => hb2 f (List.mem_append.mpr (Or.inl hf))
  have hb2L2 : ∀ f ∈ L2, ∀ t, f.path ≠ destRoot ++ t :=
    fun f hf => hb2 f (List.mem_append.mpr (Or.inr (List.mem_cons_of_mem m hf)))
  rw [runFS_append, runFS_cons]
  have hmem1 : m.path ∈ (runFS env cwd destRoot L1 fs).files :=
    (runFS_untouched env cwd destRoot L1 fs m.path hb1L1 hmroot hnot1).mpr hin
  have hnd1' : (runFS env cwd destRoot L1 fs).files.Nodup :=
    runFS_nodup env cwd destRoot L1 fs hfsnd
  obtain ⟨d, hdnot, hfiles2, htr2, hshape⟩ :=
    moveFS_succ env cwd destRoot m (runFS env cwd destRoot L1 fs) hok
  obtain ⟨t, hd, -⟩ := hshape hmcwd
  have hmd : m.path ≠ d := by rw [hd]; exact hmroot t
  have hm_not2 : m.path ∉
      (moveFS env cwd destRoot m (runFS env cwd destRoot L1 fs)).files := by
    rw [hfiles2, List.mem_append]
    rintro (hx | hx)
    · exact hnd1'.not_mem_erase hx
    · rw [List.mem_singleton] at hx
      exact hmd hx
  constructor
  · rw [runFS_untouched env cwd destRoot L2 _ m.path hb1L2 hmroot
      (fun f hf => hnot2 f hf)]
    exact hm_not2
  · refine ⟨d, ?_, ?_⟩
    · obtain ⟨tl, htl⟩ := runFS_trace_mono env cwd destRoot L2
        (moveFS env cwd destRoot m (runFS env cwd destRoot L1 fs))
      rw [htl, htr2]
      simp
    · apply runFS_keeps env cwd destRoot L2 _ d hb2L2 ⟨t, hd⟩
      rw [hfiles2, List.mem_append]
      exact Or.inr (List.mem_singleton.mpr rfl)

/-! ### Flattening `move_duplicates` to the planned move list -/

theorem processFile_fs (env : FsPath → Option String) (cwd destRoot : FsPath)
    (st : FS × Stats) (f : FileInfo) :
    (processFile env cwd destRoot false st f).1 = moveFS env cwd destRoot f st.1 := by
  unfold processFile moveFS
  rcases hmv : _move_single_file env cwd destRoot false f st.1 with ⟨r, fs'⟩
  simp only [hmv]
  cases r with
  | ok b => cases b <;> simp
  | error e => simp

theorem foldl_processFile_fs (env : FsPath → Option String)
    (cwd destRoot : FsPath) (L : List FileInfo) :
    ∀ st : FS × Stats,
      (L.foldl (processFile env cwd destRoot false) st).1 =
        runFS env cwd destRoot L st.1 := by
  induction L with
  | nil => intro st; rfl
  | cons f rest ih =>
    intro st
    rw [List.foldl_cons, ih, processFile_fs, runFS_cons]

theorem move_duplicates_fold_fs {κ : Type} (env : FsPath → Option String)
    (cwd destRoot : FsPath) (kf : Bool) (dups : List (κ × List FileInfo)) :
    ∀ st : FS × Stats,
      (dups.foldl (processGroup env cwd destRoot kf false) st).1 =
        runFS env cwd destRoot (planOf kf dups) st.1 := by
  induction dups with
  | nil => intro st; rfl
  | cons g rest ih =>
    intro st
    rw [List.foldl_cons, ih]
    by_cases hlen : g.2.length < 2
    · have h2 : ¬ 2 ≤ g.2.length := by omega
      have hskip : processGroup env cwd destRoot kf false st g = st := by
        unfold processGroup
        rw [if_pos hlen]
      rw [hskip]
      conv_rhs => rw [planOf]
      rw [if_neg h2, List.nil_append]
    · have h2 : 2 ≤ g.2.length := by omega
      have hpg : (processGroup env cwd destRoot kf false st g).1 =
          runFS env cwd destRoot (if kf then g.2.drop 1 else g.2) st.1 := by
        unfold processGroup
        rw [if_neg hlen]
        exact foldl_processFile_fs env cwd destRoot _ _
      rw [hpg]
      conv_rhs => rw [planOf]
      rw [if_pos h2, runFS_append]

theorem move_duplicates_snd {κ : Type} (env : FsPath → Option String)
    (cwd : FsPath) (dups : List (κ × List FileInfo)) (destRoot : FsPath)
    (kf : Bool) (fs : FS) :
    (move_duplicates env cwd dups destRoot kf false fs).2 =
      runFS env cwd destRoot (planOf kf dups)
        (if existsPath fs destRoot = false then mkdirParents fs destRoot
         else fs) := by
  unfold move_duplicates
  simp only [Bool.not_false, Bool.true_and]
  by_cases hex : existsPath fs destRoot
  · simp only [hex, Bool.not_true]
    rw [if_neg (show ¬ ((false : Bool) = true) by simp),
      if_neg (show ¬ ((true : Bool) = false) by simp)]
    exact move_duplicates_fold_fs env cwd destRoot kf dups _
  · have hex' : existsPath fs destRoot = false := by simpa using hex
    simp only [hex', Bool.not_false]
    rw [if_pos trivial, if_pos trivial]
    exact move_duplicates_fold_fs env cwd destRoot kf dups _

theorem planOf_append {κ : Type} (kf : Bool) (a b : List (κ × List FileInfo)) :
    planOf kf (a ++ b) = planOf kf a ++ planOf kf b := by
  induction a with
  | nil => rfl
  | cons g rest ih =>
    simp only [List.cons_append, planOf, List.append_eq]
    rw [ih, List.append_assoc]

theorem allMemberPaths_append {κ : Type} (a b : List (κ × List FileInfo)) :
    allMemberPaths (a ++ b) = allMemberPaths a ++ allMemberPaths b := by
  induction a with
  | nil => rfl
  | cons g rest ih =>
    simp only [List.cons_append, allMemberPaths, List.append_eq]
    rw [ih, List.append_assoc]

theorem planOf_paths_sublist {κ : Type} (kf : Bool)
    (dups : List (κ × List FileInfo)) :
    ((planOf kf dups).map (fun f => f.path)).Sublist (allMemberPaths dups) := by
  induction dups with
  | nil => simp [planOf, allMemberPaths]
  | cons g rest ih =>
    rw [planOf, allMemberPaths, List.map_append]
    apply List.Sublist.append _ ih
    by_cases h2 : 2 ≤ g.2.length
    · rw [if_pos h2]
      by_cases hkf : kf
      · rw [if_pos hkf, List.map_drop]
        exact List.drop_sublist 1 _
      · rw [if_neg hkf]
    · rw [if_neg h2]
      simp

theorem mem_planOf_paths_mem_all {κ : Type} (kf : Bool)
    (dups : List (κ × List FileInfo)) (f : FileInfo)
    (hf : f ∈ planOf kf dups) : f.path ∈ allMemberPaths dups :=
  (planOf_paths_sublist kf dups).subset (List.mem_map.mpr ⟨f, hf, rfl⟩)

theorem mem_planOf {κ : Type} (dups : List (κ × List FileInfo)) (key : κ)
    (files : List FileInfo) (hg : (key, files) ∈ dups)
    (h2 : 2 ≤ files.length) (m : FileInfo) (hm : m ∈ files.drop 1) :
    m ∈ planOf true dups := by
  obtain ⟨D1, D2, rfl⟩ := List.append_of_mem hg
  rw [planOf_append, List.mem_append]
  right
  rw [planOf, if_pos h2]
  simp only [if_true]
  exact List.mem_append.mpr (Or.inl hm)

theorem head_not_in_planOf {κ : Type} (dups : List (κ × List FileInfo))
    (key : κ) (k0 : FileInfo) (tail : List FileInfo)
    (hg : (key, k0 :: tail) ∈ dups)
    (hN : (allMemberPaths dups).Nodup) :
    ∀ f ∈ planOf true dups, f.path ≠ k0.path := by
  obtain ⟨D1, D2, rfl⟩ := List.append_of_mem hg
  have hshape : allMemberPaths (D1 ++ (key, k0 :: tail) :: D2) =
      allMemberPaths D1 ++
        (k0.path :: (tail.map (fun f => f.path) ++ allMemberPaths D2)) := by
    rw [allMemberPaths_append]
    simp [allMemberPaths]
  rw [hshape, List.nodup_append] at hN
  obtain ⟨-, hN2, hdisj⟩ := hN
  rw [List.nodup_cons] at hN2
  obtain ⟨hk0notin, -⟩ := hN2
  intro f hf heq
  rw [planOf_append, List.mem_append] at hf
  rcases hf with hf1 | hf2
  · exact hdisj (heq ▸ mem_planOf_paths_mem_all true D1 f hf1)
      (List.mem_cons_self _ _)
  · rw [planOf] at hf2
    simp only [if_true] at hf2
    have hfmid : f.path ∈ tail.map (fun f => f.path) ++ allMemberPaths D2 := by
      rcases List.mem_append.mp hf2 with hfa | hfb
      · by_cases h2 : 2 ≤ (k0 :: tail).length
        · rw [if_pos h2] at hfa
          have hfa' : f ∈ tail := hfa
          exact List.mem_append.mpr (Or.inl (List.mem_map.mpr ⟨f, hfa', rfl⟩))
        · rw [if_neg h2] at hfa
          cases hfa
      · exact List.mem_append.mpr (Or.inr (mem_planOf_paths_mem_all true D2 f hfb))
    exact hk0notin (heq ▸ hfmid)

/-- C2: after a non-dry-run relocation with `keep_first = true` over disjoint
groups of existing files none of which sits under the destination root, for
every processed group whose moves all succeed the first-discovered member
still exists at its original path, and every other member no longer exists at
its original path and exists at the destination path the relocator computed
for it (recorded in the move trace). -/
theorem keep_first_relocation {κ : Type} (env : FsPath → Option String)
    (cwd : FsPath) (duplicates : List (κ × List FileInfo)) (destRoot : FsPath)
    (fs : FS)
    (hfsN : fs.files.Nodup)
    (hN : (allMemberPaths duplicates).Nodup)
    (hIn : ∀ p ∈ allMemberPaths duplicates, p ∈ fs.files)
    (hRoot : ∀ p ∈ allMemberPaths duplicates, destRoot.isPrefixOf p = false)
    (hCwd : ∀ p ∈ allMemberPaths duplicates, p ≠ cwd)
    (key : κ) (files : List FileInfo)
    (hg : (key, files) ∈ duplicates) (h2 : 2 ≤ files.length)
    (hOK : ∀ f ∈ files.drop 1, env f.path = none) :
    (∀ k0, files.head? = some k0 →
      k0.path ∈ (move_duplicates env cwd duplicates destRoot true false fs).2.files) ∧
    (∀ m ∈ files.drop 1,
      m.path ∉ (move_duplicates env cwd duplicates destRoot true false fs).2.files ∧
      ∃ d, (m.path, d) ∈
          (move_duplicates env cwd duplicates destRoot true false fs).2.trace ∧
        d ∈ (move_duplicates env cwd duplicates destRoot true false fs).2.files) := by
  rw [move_duplicates_snd]
  have hIfiles :
      (if existsPath fs destRoot = false then mkdirParents fs destRoot
       else fs).files = fs.files := by
    split
    · exact mkdirParents_files fs destRoot
    · rfl
  have hroot_all : ∀ p ∈ allMemberPaths duplicates, ∀ t, p ≠ destRoot ++ t := by
    intro p hp t heq
    have h1 := hRoot p hp
    rw [heq, (isPrefixOf_exists_append destRoot (destRoot ++ t)).mpr ⟨t, rfl⟩] at h1
    cases h1
  have hplan_cwd : ∀ f ∈ planOf true duplicates, f.path ≠ cwd :=
    fun f hf => hCwd _ (mem_planOf_paths_mem_all _ _ f hf)
  have hplan_root : ∀ f ∈ planOf true duplicates, ∀ t, f.path ≠ destRoot ++ t :=
    fun f hf => hroot_all _ (mem_planOf_paths_mem_all _ _ f hf)
  have hplan_nd : ((planOf true duplicates).map (fun f => f.path)).Nodup :=
    List.Nodup.sublist (planOf_paths_sublist true duplicates) hN
  constructor
  · intro k0 hk0
    cases files with
    | nil => cases hk0
    | cons a tail =>
      have hak0 : a = k0 := by
        simp only [List.head?_cons, Option.some.injEq] at hk0
        exact hk0
      subst hak0
      have hk0mem : a.path ∈ allMemberPaths duplicates := by
        obtain ⟨D1, D2, rfl⟩ := List.append_of_mem hg
        rw [allMemberPaths_append, List.mem_append]
        right
        rw [allMemberPaths]
        exact List.mem_append.mpr
          (Or.inl (List.mem_map.mpr ⟨a, List.mem_cons_self _ _, rfl⟩))
      rw [runFS_untouched env cwd destRoot _ _ a.path hplan_cwd
        (hroot_all a.path hk0mem) (head_not_in_planOf duplicates key a tail hg hN)]
      rw [hIfiles]
      exact hIn _ hk0mem
  · intro m hm
    have hmplan : m ∈ planOf true duplicates :=
      mem_planOf duplicates key files hg h2 m hm
    have hmall : m.path ∈ allMemberPaths duplicates :=
      mem_planOf_paths_mem_all true duplicates m hmplan
    exact runFS_member env cwd destRoot (planOf true duplicates) _
      hplan_cwd hplan_root hplan_nd (by rw [hIfiles]; exact hfsN)
      m hmplan (by rw [hIfiles]; exact hIn _ hmall) (hOK m hm)

/-- Witness for C2: moving the duplicate group `[wfA, wfB]` (keep first, not
dry-run, all moves succeeding) keeps `wfA` at its original path and moves
`wfB` away, to its recorded destination. -/
theorem keep_first_relocation_witness :
    (∀ k0, [wfA, wfB].head? = some k0 →
      k0.path ∈ (move_duplicates (fun _ => none) ["r"] [("k", [wfA, wfB])]
        ["d"] true false fsR).2.files) ∧
    (∀ m ∈ [wfA, wfB].drop 1,
      m.path ∉ (move_duplicates (fun _ => none) ["r"] [("k", [wfA, wfB])]
        ["d"] true false fsR).2.files ∧
      ∃ d, (m.path, d) ∈ (move_duplicates (fun _ => none) ["r"]
          [("k", [wfA, wfB])] ["d"] true false fsR).2.trace ∧
        d ∈ (move_duplicates (fun _ => none) ["r"] [("k", [wfA, wfB])]
          ["d"] true false fsR).2.files) :=
  keep_first_relocation (fun _ => none) ["r"] [("k", [wfA, wfB])] ["d"] fsR
    (by decide) (by decide) (by decide) (by decide) (by decide)
    "k" [wfA, wfB] (by decide) (by decide) (by decide)

/-! ### The returned statistics -/

theorem successCount_cons_none {env : FsPath → Option String} {f : FileInfo}
    (rest : List FileInfo) (h : env f.path = none) :
    successCount env (f :: rest) = successCount env rest + 1 := by
  unfold successCount
  rw [List.filter_cons, if_pos (by rw [h]; rfl)]
  rfl

theorem successCount_cons_some {env : FsPath → Option String} {f : FileInfo}
    {c : String} (rest : List FileInfo) (h : env f.path = some c) :
    successCount env (f :: rest) = successCount env rest := by
  unfold successCount
  rw [List.filter_cons, if_neg (by rw [h]; simp)]

theorem freedSpace_cons_none {env : FsPath → Option String} {f : FileInfo}
    (rest : List FileInfo) (h : env f.path = none) :
    freedSpace env (f :: rest) = f.size + freedSpace env rest := by
  unfold freedSpace
  rw [List.filter_cons, if_pos (by rw [h]; rfl)]
  simp

theorem freedSpace_cons_some {env : FsPath → Option String} {f : FileInfo}
    {c : String} (rest : List FileInfo) (h : env f.path = some c) :
    freedSpace env (f :: rest) = freedSpace env rest := by
  unfold freedSpace
  rw [List.filter_cons, if_neg (by rw [h]; simp)]

theorem errorsOf_cons_none {env : FsPath → Option String} {f : FileInfo}
    (rest : List FileInfo) (h : env f.path = none) :
    errorsOf env (f :: rest) = errorsOf env rest := by
  unfold errorsOf
  rw [List.filterMap_cons, h]
  rfl

theorem errorsOf_cons_some {env : FsPath → Option String} {f : FileInfo}
    {c : String} (rest : List FileInfo) (h : env f.path = some c) :
    errorsOf env (f :: rest) =
      (f.path, "Could not move file: " ++ c) :: errorsOf env rest := by
  unfold errorsOf
  rw [List.filterMap_cons, h]
  rfl

theorem successCount_append (env : FsPath → Option String)
    (a b : List FileInfo) :
    successCount env (a ++ b) = successCount env a + successCount env b := by
  unfold successCount
  rw [List.filter_append, List.length_append]

theorem freedSpace_append (env : FsPath → Option String) (a b : List FileInfo) :
    freedSpace env (a ++ b) = freedSpace env a + freedSpace env b := by
  unfold freedSpace
  rw [List.filter_append, List.map_append, List.sum_append]

theorem errorsOf_append (env : FsPath → Option String) (a b : List FileInfo) :
    errorsOf env (a ++ b) = errorsOf env a ++ errorsOf env b := by
  unfold errorsOf
  rw [List.filterMap_append]

theorem processFile_stats (env : FsPath → Option String) (cwd destRoot : FsPath)
    (st : FS × Stats) (f : FileInfo) :
    (processFile env cwd destRoot false st f).2 =
      match env f.path with
      | none =>
        { st.2 with
            moved_files := st.2.moved_files + 1,
            total_space_freed := st.2.total_space_freed + f.size }
      | some c =>
        { st.2 with
            errors := st.2.errors ++ [(f.path, "Could not move file: " ++ c)] } := by
  unfold processFile _move_single_file
  rw [if_neg Bool.false_ne_true]
  cases henv : env f.path with
  | none => simp only [henv, if_true]
  | some c => simp only [henv]

theorem foldl_processFile_stats (env : FsPath → Option String)
    (cwd destRoot : FsPath) (L : List FileInfo) :
    ∀ st : FS × Stats,
      (L.foldl (processFile env cwd destRoot false) st).2 =
        { st.2 with
            moved_files := st.2.moved_files + successCount env L,
            total_space_freed := st.2.total_space_freed + freedSpace env L,
            errors := st.2.errors ++ errorsOf env L } := by
  induction L with
  | nil =>
    intro st
    simp [successCount, freedSpace, errorsOf]
  | cons f rest ih =>
    intro st
    rw [List.foldl_cons, ih, processFile_stats]
    cases henv : env f.path with
    | none =>
      simp only [henv]
      rw [successCount_cons_none rest henv, freedSpace_cons_none rest henv,
        errorsOf_cons_none rest henv]
      simp only [Stats.mk.injEq]
      refine ⟨?_, ?_, ?_, ?_, ?_⟩ <;> first | trivial | omega | simp
    | some c =>
      simp only [henv]
      rw [successCount_cons_some rest henv, freedSpace_cons_some rest henv,
        errorsOf_cons_some rest henv]
      simp only [Stats.mk.injEq]
      refine ⟨?_, ?_, ?_, ?_, ?_⟩ <;> first | trivial | omega | simp

theorem processGroup_stats {κ : Type} (env : FsPath → Option String)
    (cwd destRoot : FsPath) (kf : Bool) (st : FS × Stats)
    (g : κ × List FileInfo) :
    (processGroup env cwd destRoot kf false st g).2 =
      if 2 ≤ g.2.length then
        { st.2 with
            moved_groups := st.2.moved_groups + 1,
            moved_files := st.2.moved_files +
              successCount env (if kf then g.2.drop 1 else g.2),
            total_space_freed := st.2.total_space_freed +
              freedSpace env (if kf then g.2.drop 1 else g.2),
            errors := st.2.errors ++
              errorsOf env (if kf then g.2.drop 1 else g.2) }
      else st.2 := by
  unfold processGroup
  by_cases hlen : g.2.length < 2
  · rw [if_pos hlen, if_neg (show ¬ 2 ≤ g.2.length by omega)]
  · rw [if_neg hlen, if_pos (show 2 ≤ g.2.length by omega)]
    rw [foldl_processFile_stats]

theorem foldl_processGroup_stats {κ : Type} (env : FsPath → Option String)
    (cwd destRoot : FsPath) (kf : Bool) (dups : List (κ × List FileInfo)) :
    ∀ st : FS × Stats,
      (dups.foldl (processGroup env cwd destRoot kf false) st).2 =
        { st.2 with
            moved_groups := st.2.moved_groups + processedGroups dups,
            moved_files := st.2.moved_files + successCount env (planOf kf dups),
            total_space_freed := st.2.total_space_freed +
              freedSpace env (planOf kf dups),
            errors := st.2.errors ++ errorsOf env (planOf kf dups) } := by
  induction dups with
  | nil =>
    intro st
    simp [processedGroups, planOf, successCount, freedSpace, errorsOf]
  | cons g rest ih =>
    intro st
    rw [List.foldl_cons, ih, processGroup_stats]
    by_cases h2 : 2 ≤ g.2.length
    · rw [if_pos h2]
      have hpg : processedGroups (g :: rest) = processedGroups rest + 1 := by
        unfold processedGroups
        rw [List.filter_cons, if_pos (by simpa using h2)]
        rfl
      have hplan : planOf kf (g :: rest) =
          (if kf then g.2.drop 1 else g.2) ++ planOf kf rest := by
        rw [planOf, if_pos h2]
      rw [hpg, hplan, successCount_append, freedSpace_append, errorsOf_append]
      simp only [Stats.mk.injEq]
      refine ⟨?_, ?_, ?_, ?_, ?_⟩ <;> first | trivial | omega | simp
    · rw [if_neg h2]
      have hpg : processedGroups (g :: rest) = processedGroups rest := by
        unfold processedGroups
        rw [List.filter_cons, if_neg (by simpa using h2)]
      have hplan : planOf kf (g :: rest) = planOf kf rest := by
        rw [planOf, if_neg h2, List.nil_append]
      rw [hpg, hplan]

theorem move_duplicates_stats_spec {κ : Type} (env : FsPath → Option String)
    (cwd : FsPath) (dups : List (κ × List FileInfo)) (destRoot : FsPath)
    (kf : Bool) (fs : FS) :
    (move_duplicates env cwd dups destRoot kf false fs).1 =
      { moved_files := successCount env (planOf kf dups),
        created_dirs := if existsPath fs destRoot = false then 1 else 0,
        errors := errorsOf env (planOf kf dups),
        total_space_freed := freedSpace env (planOf kf dups),
        moved_groups := processedGroups dups } := by
  unfold move_duplicates
  simp only [Bool.not_false, Bool.true_and]
  by_cases hex : existsPath fs destRoot
  · simp only [hex, Bool.not_true]
    rw [if_neg (show ¬ ((false : Bool) = true) by simp),
      if_neg (show ¬ ((true : Bool) = false) by simp)]
    refine (foldl_processGroup_stats env cwd destRoot kf dups _).trans ?_
    simp only [Stats.mk.injEq]
    refine ⟨?_, ?_, ?_, ?_, ?_⟩ <;> first | trivial | omega | simp
  · have hex' : existsPath fs destRoot = false := by simpa using hex
    simp only [hex', Bool.not_false]
    rw [if_pos trivial, if_pos trivial]
    refine (foldl_processGroup_stats env cwd destRoot kf dups _).trans ?_
    simp only [Stats.mk.injEq]
    refine ⟨?_, ?_, ?_, ?_, ?_⟩ <;> first | trivial | omega | simp

/-- Counterexample to C8 as stated: in a run that moves one file into a new
destination subdirectory, two directories are actually created (the
destination root `["d"]` and the per-file parent `["d", "y"]`) but the
returned `created_dirs` is 1 - only the creation of the destination root is
counted (src line 188); the per-file `mkdir` of src line 258 is not. -/
theorem relocation_statistics_counterexample :
    (move_duplicates (fun _ => none) ["r"] [("k", [wfA, wfB])] ["d"]
      true false fsR).1.created_dirs = 1 ∧
    (move_duplicates (fun _ => none) ["r"] [("k", [wfA, wfB])] ["d"]
      true false fsR).2.dirs = fsR.dirs ++ [["d"], ["d", "y"]] := by
  decide

/-- C8 as amended: the returned statistics of a non-dry-run relocation
satisfy: `moved_files` is the count of files actually moved,
`total_space_freed` is the sum of the snapshot sizes of the successfully
moved files, `errors` is the ordered list with one entry per failed move
carrying the file path and the underlying cause, and `created_dirs` counts
only the creation of the destination root (1 if it was created, 0 if it
already existed) - destination subdirectories are created but not counted. -/
theorem relocation_statistics {κ : Type} (env : FsPath → Option String)
    (cwd : FsPath) (dups : List (κ × List FileInfo)) (destRoot : FsPath)
    (kf : Bool) (fs : FS) :
    (move_duplicates env cwd dups destRoot kf false fs).1 =
      { moved_files := successCount env (planOf kf dups),
        created_dirs := if existsPath fs destRoot = false then 1 else 0,
        errors := errorsOf env (planOf kf dups),
        total_space_freed := freedSpace env (planOf kf dups),
        moved_groups := processedGroups dups } :=
  move_duplicates_stats_spec env cwd dups destRoot kf fs

/-- C9: a failed move does not abort processing: the failure is recorded as
an error entry, the failed file is not among the counted successes, the
moved-file count and freed-space total still account for every planned move
that succeeds, and every planned move that succeeds - in the same group or a
later one - is still performed (it appears in the move trace). -/
theorem move_failure_isolated {κ : Type} (env : FsPath → Option String)
    (cwd : FsPath) (dups : List (κ × List FileInfo)) (destRoot : FsPath)
    (kf : Bool) (fs : FS) (f0 : FileInfo) (c : String)
    (hf0 : f0 ∈ planOf kf dups) (henv : env f0.path = some c) :
    (f0.path, "Could not move file: " ++ c)
      ∈ (move_duplicates env cwd dups destRoot kf false fs).1.errors ∧
    f0 ∉ (planOf kf dups).filter (fun f => (env f.path).isNone) ∧
    (move_duplicates env cwd dups destRoot kf false fs).1.moved_files =
      successCount env (planOf kf dups) ∧
    (move_duplicates env cwd dups destRoot kf false fs).1.total_space_freed =
      freedSpace env (planOf kf dups) ∧
    (∀ f ∈ planOf kf dups, env f.path = none →
      ∃ d, (f.path, d) ∈
        (move_duplicates env cwd dups destRoot kf false fs).2.trace) := by
  refine ⟨?_, ?_, ?_, ?_, ?_⟩
  · rw [move_duplicates_stats_spec]
    exact List.mem_filterMap.mpr ⟨f0, hf0, by rw [henv]; rfl⟩
  · intro hmem
    have h2 := (List.mem_filter.mp hmem).2
    rw [henv] at h2
    simp at h2
  · rw [move_duplicates_stats_spec]
  · rw [move_duplicates_stats_spec]
  · intro f hf henvf
    rw [move_duplicates_snd]
    exact runFS_success_trace env cwd destRoot (planOf kf dups) _ f hf henvf

/-- Witness for C9: with a move environment failing exactly on `wfB`, the
failure is recorded and the statistics still account for the successes. -/
theorem move_failure_isolated_witness :
    (wfB.path, "Could not move file: " ++ "EPERM")
      ∈ (move_duplicates envFailB ["r"] [("k", [wfA, wfB])] ["d"]
          true false fsR).1.errors ∧
    wfB ∉ (planOf true [("k", [wfA, wfB])]).filter
        (fun f => (envFailB f.path).isNone) ∧
    (move_duplicates envFailB ["r"] [("k", [wfA, wfB])] ["d"]
        true false fsR).1.moved_files =
      successCount envFailB (planOf true [("k", [wfA, wfB])]) ∧
    (move_duplicates envFailB ["r"] [("k", [wfA, wfB])] ["d"]
        true false fsR).1.total_space_freed =
      freedSpace envFailB (planOf true [("k", [wfA, wfB])]) ∧
    (∀ f ∈ planOf true [("k", [wfA, wfB])], envFailB f.path = none →
      ∃ d, (f.path, d) ∈ (move_duplicates envFailB ["r"]
        [("k", [wfA, wfB])] ["d"] true false fsR).2.trace) :=
  move_failure_isolated envFailB ["r"] [("k", [wfA, wfB])] ["d"] true fsR
    wfB "EPERM" (by decide) (by decide)
